import Mathlib

/-!
Verification of the quicksort library in `src/lib.rs` (functions `partition`
and `quicksort`).

The slice is modelled as a `List α` for a linearly ordered `α`.  The Rust
`slice[i]` reads are modelled by the checked read `getE` and `slice.swap i j`
by the checked `swapE`, both in an `Except Fault` monad whose `Fault` value
distinguishes the `panic!` on a short slice, a failed `assert!`, an
out-of-bounds index, and exhaustion of the loop fuel.  The partition loop and
the recursive sort driver are given explicit fuel; the theorems below show
the fuel supplied by the top-level wrappers is never exhausted, so the fueled
definitions model the (terminating) Rust originals faithfully.
-/

set_option linter.unusedSectionVars false
set_option linter.unusedVariables false

namespace Quicksort

variable {α : Type} [LinearOrder α] [Inhabited α]

/-- Total indexing into a list, returning `default` out of bounds.
All reads proved about below are in bounds, so the default is never
relevant to the theorems. -/
def dget : List α → Nat → α
  | [], _ => default
  | a :: _, 0 => a
  | _ :: l, n + 1 => dget l n

/-- Model of `slice.swap i j`: the element previously at `j` is stored at
`i` and vice versa. -/
def lswap (l : List α) (i j : Nat) : List α :=
  (l.set i (dget l j)).set j (dget l i)

/-- Faults a Rust execution can raise: the explicit `panic!` on a slice of
length < 2, a failed `assert!`, an out-of-bounds slice index, and loop-fuel
exhaustion (which models non-termination of the embedded loop). -/
inductive Fault
  | shortSlice
  | assertFailed
  | oob
  | fuelOut
deriving DecidableEq, Repr

/-- Decidable equality of `Except` results, used to evaluate the model on
concrete inputs. -/
instance {ε β : Type} [DecidableEq ε] [DecidableEq β] : DecidableEq (Except ε β) := fun a b =>
  match a, b with
  | .error x, .error y =>
    if h : x = y then .isTrue (by rw [h]) else .isFalse (by simp [h])
  | .ok x, .ok y =>
    if h : x = y then .isTrue (by rw [h]) else .isFalse (by simp [h])
  | .error x, .ok y => .isFalse (by simp)
  | .ok x, .error y => .isFalse (by simp)

/-- Checked read `slice[i]`. -/
def getE (l : List α) (i : Nat) : Except Fault α :=
  match l.get? i with
  | some v => .ok v
  | none => .error .oob

/-- Checked `slice.swap(i, j)`. -/
def swapE (l : List α) (i j : Nat) : Except Fault (List α) :=
  if i < l.length ∧ j < l.length then .ok (lswap l i j) else .error .oob

/-- Model of `assert!`. -/
def assertE (p : Prop) [Decidable p] : Except Fault Unit :=
  if p then .ok () else .error .assertFailed

/-- The possible placements, mirroring `enum P` in the source. -/
inductive P
  | SPLIT
  | LOW
  | HIGH
deriving DecidableEq, Repr

/-- The placement decision chain of `partition` (lines 147-171 of
`lib.rs`), taken on the values of `slice[low]`, `slice[high]`,
`slice[low_max]`, `slice[high_min]` read just before it. -/
def placeOf (nlow nhigh : Nat) (vlow vhigh vlm vhm : α) : P :=
  if vlow < vlm ∧ vhigh < vlm then P.LOW
  else if vlow > vhm ∧ vhigh > vhm then P.HIGH
  else if nlow + 1 < nhigh ∧ vlow ≤ vhm ∧ vhigh ≤ vhm then P.LOW
  else if nhigh + 1 < nlow ∧ vlow ≥ vlm ∧ vhigh ≥ vlm then P.HIGH
  else P.SPLIT

/-- The state of one `partition` call: the slice and the four loop
variables `low`, `high`, `low_max`, `high_min`. -/
structure PartState (α : Type) where
  l : List α
  low : Nat
  high : Nat
  low_max : Nat
  high_min : Nat
deriving DecidableEq, Repr

/-- Inner loop of the cleanup selection sort:
`for j in (i+1)..ngap { if slice[low+i] > slice[low+j] { swap } }`,
with `js` the list of values of `j`. -/
def selsortInner (low i : Nat) : List Nat → List α → Except Fault (List α)
  | [], l => .ok l
  | j :: js, l => do
    let a ← getE l (low + i)
    let b ← getE l (low + j)
    let l ← if a > b then swapE l (low + i) (low + j) else pure l
    selsortInner low i js l

/-- Outer loop of the cleanup selection sort over `i in 1..ngap`. -/
def selsortOuter (low ngap : Nat) : List Nat → List α → Except Fault (List α)
  | [], l => .ok l
  | i :: is, l => do
    let l ← selsortInner low i (List.range' (i + 1) (ngap - (i + 1))) l
    selsortOuter low ngap is l

/-- The cleanup selection sort over the gap values (lines 79-85). -/
def selsortGap (l : List α) (low ngap : Nat) : Except Fault (List α) :=
  selsortOuter low ngap (List.range' 1 (ngap - 1)) l

/-- The cleanup migration loop (lines 89-98):
`for _ in 1..ngap { if slice[low+1] <= slice[high_min] { low += 1; update
low_max } else { break } }`; `k` counts the remaining iterations.  Returns
the final `(low, low_max)`. -/
def migrate (l : List α) (high_min : Nat) : Nat → Nat → Nat → Except Fault (Nat × Nat)
  | 0, low, low_max => .ok (low, low_max)
  | k + 1, low, low_max => do
    let a ← getE l (low + 1)
    let vhm ← getE l high_min
    if a ≤ vhm then do
      -- the source increments low and re-reads slice[low]; the incremented
      -- value low + 1 is inlined
      let vl ← getE l (low + 1)
      let vlm ← getE l low_max
      migrate l high_min k (low + 1) (if vl > vlm then low + 1 else low_max)
    else
      .ok (low, low_max)

/-- The cleanup-and-return block of `partition` (lines 70-122, the branch
taken when `low + 3 >= high`), without the `#[cfg(test)]` scans. -/
def cleanup (l : List α) (low high low_max high_min : Nat) : Except Fault (Nat × List α) := do
  assertE (high > low)
  -- ngap = high - low is inlined below
  let l1 ← selsortGap l low (high - low)
  -- after the migration loop, r.1 is the final low (the pivot) and r.2 the
  -- final low_max
  let r ← migrate l1 high_min (high - low - 1) low low_max
  let l2 ← if r.2 ≠ r.1 then swapE l1 r.2 r.1 else pure l1
  let vlm ← getE l2 r.2
  let vhm ← getE l2 high_min
  assertE (vlm ≤ vhm)
  pure (r.1, l2)

/-- The `P::LOW` placement arm (lines 175-194).  `low` and `high` are the
already incremented/decremented values of this iteration. -/
def placeLow (l : List α) (low high low_max high_min : Nat) : Except Fault (PartState α) := do
  assertE (low + 1 < high)
  let l ← swapE l (low + 1) high
  let a ← getE l low
  let b ← getE l low_max
  let low_max := if a > b then low else low_max
  let c ← getE l (low + 1)
  let d ← getE l low_max
  let low_max := if c > d then low + 1 else low_max
  pure ⟨l, low + 1, high + 1, low_max, high_min⟩

/-- The `P::HIGH` placement arm (lines 195-214). -/
def placeHigh (l : List α) (low high low_max high_min : Nat) : Except Fault (PartState α) := do
  assertE (low + 1 < high)
  let l ← swapE l low (high - 1)
  let a ← getE l high
  let b ← getE l high_min
  let high_min := if a < b then high else high_min
  let c ← getE l (high - 1)
  let d ← getE l high_min
  let high_min := if c < d then high - 1 else high_min
  pure ⟨l, low - 1, high - 1, low_max, high_min⟩

/-- The `P::SPLIT` placement arm (lines 215-229). -/
def placeSplit (l : List α) (low high low_max high_min : Nat) : Except Fault (PartState α) := do
  let vl ← getE l low
  let vh ← getE l high
  let l ← if vl > vh then swapE l low high else pure l
  let a ← getE l low
  let b ← getE l low_max
  let low_max := if a > b then low else low_max
  let c ← getE l high
  let d ← getE l high_min
  let high_min := if c < d then high else high_min
  pure ⟨l, low, high, low_max, high_min⟩

/-- One iteration of the main loop of `partition` (lines 57-231): the entry
`assert!`, the cleanup branch (returning `.inr (pivot, slice)`), or one
placement of the two new gap values (returning `.inl` of the next state). -/
def partitionStep (nslice : Nat) (s : PartState α) :
    Except Fault (PartState α ⊕ (Nat × List α)) := do
  let vlm ← getE s.l s.low_max
  let vhm ← getE s.l s.high_min
  assertE (vlm ≤ vhm)
  if s.low + 3 ≥ s.high then
    let r ← cleanup s.l s.low s.high s.low_max s.high_min
    pure (.inr r)
  else do
    -- here the source sets low += 1 and high -= 1 and then nlow = low + 1,
    -- nhigh = nslice - high; the updated values are inlined below
    let vlow ← getE s.l (s.low + 1)
    let vhigh ← getE s.l (s.high - 1)
    match placeOf (s.low + 2) (nslice - (s.high - 1)) vlow vhigh vlm vhm with
    | P.LOW => do
      let s1 ← placeLow s.l (s.low + 1) (s.high - 1) s.low_max s.high_min
      pure (.inl s1)
    | P.HIGH => do
      let s1 ← placeHigh s.l (s.low + 1) (s.high - 1) s.low_max s.high_min
      pure (.inl s1)
    | P.SPLIT => do
      let s1 ← placeSplit s.l (s.low + 1) (s.high - 1) s.low_max s.high_min
      pure (.inl s1)

/-- The main loop of `partition`, with fuel. -/
def partitionLoop (nslice : Nat) : Nat → PartState α → Except Fault (Nat × List α)
  | 0, _ => .error .fuelOut
  | fuel + 1, s =>
    match partitionStep nslice s with
    | .error e => .error e
    | .ok (.inr r) => .ok r
    | .ok (.inl s1) => partitionLoop nslice fuel s1

/-- The slice after the seed comparison-and-swap of the first and last
elements (lines 46-48). -/
def seedList (l : List α) : List α :=
  if dget l 0 > dget l (l.length - 1) then lswap l 0 (l.length - 1) else l

/-- The loop state at the first entry of the main loop (lines 50-54). -/
def initState (l : List α) : PartState α :=
  ⟨seedList l, 0, l.length - 1, 0, l.length - 1⟩

/-- Model of `pub fn partition`.  Returns the pivot index together with the
rearranged slice; the fuel `l.length` is shown below to be sufficient. -/
def partition (l : List α) : Except Fault (Nat × List α) :=
  -- nslice = l.length is inlined below
  if l.length < 2 then .error .shortSlice
  else do
    let a ← getE l 0
    let b ← getE l (l.length - 1)
    let l1 ← if a > b then swapE l 0 (l.length - 1) else pure l
    partitionLoop l.length l.length ⟨l1, 0, l.length - 1, 0, l.length - 1⟩

/-- Model of `pub fn quicksort`, with fuel for the recursion depth.  The
two recursive calls on `slice[..pivot]` and `slice[pivot+1..]` become calls
on `take`/`drop` parts whose results are reassembled around the pivot
element. -/
def qsort : Nat → List α → Except Fault (List α)
  | 0, _ => .error .fuelOut
  | fuel + 1, l =>
    if l.length ≤ 1 then .ok l
    else do
      let r ← partition l
      let p := r.1
      let l1 := r.2
      let left ← qsort fuel (l1.take p)
      let right ← qsort fuel (l1.drop (p + 1))
      let v ← getE l1 p
      pure (left ++ v :: right)

/-- Model of `pub fn quicksort` at the top level; the fuel `l.length + 1`
is shown below to be sufficient. -/
def quicksort (l : List α) : Except Fault (List α) :=
  qsort (l.length + 1) l

/-! ### Basic lemmas about `dget`, `List.set` and `lswap` -/

theorem dget_nil (i : Nat) : dget ([] : List α) i = default := by
  cases i <;> rfl

theorem dget_cons_succ (a : α) (l : List α) (i : Nat) :
    dget (a :: l) (i + 1) = dget l i := rfl

theorem dget_eq_get (l : List α) (i : Nat) (h : i < l.length) :
    dget l i = l.get ⟨i, h⟩ := by
  induction l generalizing i with
  | nil => simp at h
  | cons a t ih =>
    cases i with
    | zero => rfl
    | succ n => exact ih n (by simpa using h)

theorem dget_set_eq (l : List α) (i : Nat) (a : α) (h : i < l.length) :
    dget (l.set i a) i = a := by
  induction l generalizing i with
  | nil => simp at h
  | cons b t ih =>
    cases i with
    | zero => rfl
    | succ n => exact ih n (by simpa using h)

theorem dget_set_ne (l : List α) (i k : Nat) (a : α) (h : i ≠ k) :
    dget (l.set i a) k = dget l k := by
  induction l generalizing i k with
  | nil => cases i <;> rfl
  | cons b t ih =>
    cases i with
    | zero => cases k with
      | zero => exact absurd rfl h
      | succ m => rfl
    | succ n => cases k with
      | zero => rfl
      | succ m => exact ih n m (by omega)

theorem length_lswap (l : List α) (i j : Nat) :
    (lswap l i j).length = l.length := by
  simp [lswap]

theorem dget_lswap_left (l : List α) (i j : Nat) (hi : i < l.length) (hj : j < l.length) :
    dget (lswap l i j) i = dget l j := by
  rcases eq_or_ne j i with rfl | hne
  · unfold lswap
    rw [dget_set_eq _ _ _ (by simpa using hi)]
  · unfold lswap
    rw [dget_set_ne _ _ _ _ hne, dget_set_eq _ _ _ hi]

theorem dget_lswap_right (l : List α) (i j : Nat) (hi : i < l.length) (hj : j < l.length) :
    dget (lswap l i j) j = dget l i := by
  unfold lswap
  rw [dget_set_eq _ _ _ (by simpa using hj)]

theorem dget_lswap_ne (l : List α) (i j k : Nat) (hki : k ≠ i) (hkj : k ≠ j) :
    dget (lswap l i j) k = dget l k := by
  unfold lswap
  rw [dget_set_ne _ _ _ _ (Ne.symm hkj), dget_set_ne _ _ _ _ (Ne.symm hki)]

theorem set_perm_cons (l : List α) (j : Nat) (x : α) (h : j < l.length) :
    (dget l j :: l.set j x).Perm (x :: l) := by
  induction l generalizing j with
  | nil => simp at h
  | cons a t ih =>
    cases j with
    | zero => exact List.Perm.swap x a t
    | succ n =>
      have hn : n < t.length := by simpa using h
      have h1 : (dget (a :: t) (n + 1) :: (a :: t).set (n + 1) x)
          = dget t n :: a :: t.set n x := rfl
      rw [h1]
      exact (List.Perm.swap a (dget t n) (t.set n x)).trans
        (((ih n hn).cons a).trans (List.Perm.swap x a t))

theorem lswap_perm (l : List α) (i j : Nat) (hi : i < l.length) (hj : j < l.length) :
    (lswap l i j).Perm l := by
  induction l generalizing i j with
  | nil => simp at hi
  | cons a t ih =>
    cases i with
    | zero =>
      cases j with
      | zero => simp [lswap, dget]
      | succ n =>
        have hn : n < t.length := by simpa using hj
        have : lswap (a :: t) 0 (n + 1) = dget t n :: t.set n a := by
          simp [lswap, dget]
        rw [this]
        exact set_perm_cons t n a hn
    | succ m =>
      cases j with
      | zero =>
        have hm : m < t.length := by simpa using hi
        have : lswap (a :: t) (m + 1) 0 = dget t m :: t.set m a := by
          simp [lswap, dget]
        rw [this]
        exact set_perm_cons t m a hm
      | succ n =>
        have hm : m < t.length := by simpa using hi
        have hn : n < t.length := by simpa using hj
        have : lswap (a :: t) (m + 1) (n + 1) = a :: lswap t m n := by
          simp [lswap, dget]
        rw [this]
        exact (ih m n hm hn).cons a

theorem dget_mem (l : List α) (i : Nat) (h : i < l.length) : dget l i ∈ l := by
  rw [dget_eq_get l i h]
  exact l.get_mem i h

theorem mem_iff_dget (l : List α) (a : α) :
    a ∈ l ↔ ∃ i, i < l.length ∧ dget l i = a := by
  constructor
  · intro h
    rcases List.mem_iff_get.mp h with ⟨⟨i, hi⟩, rfl⟩
    exact ⟨i, hi, dget_eq_get l i hi⟩
  · rintro ⟨i, hi, rfl⟩
    exact dget_mem l i hi

theorem dget_take (l : List α) (p i : Nat) (h : i < p) :
    dget (l.take p) i = dget l i := by
  induction l generalizing p i with
  | nil => simp [dget_nil]
  | cons a t ih =>
    cases p with
    | zero => omega
    | succ q =>
      cases i with
      | zero => rfl
      | succ n => exact ih q n (by omega)

theorem dget_drop (l : List α) (p i : Nat) :
    dget (l.drop p) i = dget l (p + i) := by
  induction l generalizing p with
  | nil => simp [dget_nil]
  | cons a t ih =>
    cases p with
    | zero => rw [List.drop_zero, Nat.zero_add]
    | succ q =>
      have : (q + 1) + i = q + i + 1 := by omega
      rw [List.drop_succ_cons, ih q, this, dget_cons_succ]

theorem drop_eq_dget_cons (l : List α) (p : Nat) (h : p < l.length) :
    l.drop p = dget l p :: l.drop (p + 1) := by
  induction l generalizing p with
  | nil => simp at h
  | cons a t ih =>
    cases p with
    | zero => rfl
    | succ q =>
      have hq : q < t.length := by simpa using h
      simpa [dget_cons_succ] using ih q hq

/-! ### Reduction lemmas for the `Except` monad plumbing -/

theorem ok_bind {β γ : Type} (a : β) (f : β → Except Fault γ) :
    (Except.ok a >>= f) = f a := rfl

theorem pure_ok {β : Type} (a : β) : (pure a : Except Fault β) = .ok a := rfl

theorem getE_eq_ok (l : List α) (i : Nat) (h : i < l.length) :
    getE l i = .ok (dget l i) := by
  unfold getE
  rw [List.get?_eq_get h]
  rw [dget_eq_get l i h]

theorem swapE_eq_ok (l : List α) (i j : Nat) (hi : i < l.length) (hj : j < l.length) :
    swapE l i j = .ok (lswap l i j) := by
  unfold swapE
  rw [if_pos ⟨hi, hj⟩]

theorem assertE_eq_ok (p : Prop) [Decidable p] (h : p) : assertE p = .ok () := by
  unfold assertE
  rw [if_pos h]

/-! ### Case analysis of the placement decision -/

theorem placeOf_low (nlow nhigh : Nat) (a b c d : α)
    (h : placeOf nlow nhigh a b c d = P.LOW) :
    (a < c ∧ b < c) ∨ (a ≤ d ∧ b ≤ d) := by
  unfold placeOf at h
  split_ifs at h with h1 h2 h3 h4
  · exact .inl h1
  · exact .inr ⟨h3.2.1, h3.2.2⟩

theorem placeOf_high (nlow nhigh : Nat) (a b c d : α)
    (h : placeOf nlow nhigh a b c d = P.HIGH) :
    (d < a ∧ d < b) ∨ (c ≤ a ∧ c ≤ b) := by
  unfold placeOf at h
  split_ifs at h with h1 h2 h3 h4
  · exact .inl h2
  · exact .inr ⟨h4.2.1, h4.2.2⟩

theorem placeOf_split (nlow nhigh : Nat) (a b c d : α)
    (h : placeOf nlow nhigh a b c d = P.SPLIT) :
    (c ≤ a ∨ c ≤ b) ∧ (a ≤ d ∨ b ≤ d) := by
  unfold placeOf at h
  split_ifs at h with h1 h2 h3 h4
  constructor
  · rcases not_and_or.mp h1 with hx | hx
    · exact .inl (not_lt.mp hx)
    · exact .inr (not_lt.mp hx)
  · rcases not_and_or.mp h2 with hx | hx
    · exact .inl (not_lt.mp hx)
    · exact .inr (not_lt.mp hx)

/-! ### Specifications of the three placement arms -/

theorem placeLow_spec (l : List α) (low high lm hm : Nat)
    (hlh : low + 1 < high) (hhn : high < l.length) (hlm : lm < low) :
    ∃ lm2, placeLow l low high lm hm =
        .ok ⟨lswap l (low + 1) high, low + 1, high + 1, lm2, hm⟩ ∧
      lm2 ≤ low + 1 ∧
      dget (lswap l (low + 1) high) lm2 =
        max (max (dget l lm) (dget l low)) (dget l high) := by
  have hl1 : low + 1 < l.length := by omega
  have hlown : low < l.length := by omega
  have hlmn : lm < l.length := by omega
  have hlen1 : (lswap l (low + 1) high).length = l.length := length_lswap l _ _
  have e1 : dget (lswap l (low + 1) high) low = dget l low :=
    dget_lswap_ne l _ _ _ (by omega) (by omega)
  have e2 : dget (lswap l (low + 1) high) lm = dget l lm :=
    dget_lswap_ne l _ _ _ (by omega) (by omega)
  have e3 : dget (lswap l (low + 1) high) (low + 1) = dget l high :=
    dget_lswap_left l _ _ hl1 hhn
  unfold placeLow
  rw [assertE_eq_ok _ hlh, ok_bind, swapE_eq_ok l (low + 1) high hl1 hhn, ok_bind,
    getE_eq_ok _ low (by omega), ok_bind, getE_eq_ok _ lm (by omega), ok_bind, e1, e2]
  by_cases hc1 : dget l low > dget l lm
  · rw [if_pos hc1]
    rw [getE_eq_ok _ (low + 1) (by omega), ok_bind, getE_eq_ok _ low (by omega), ok_bind, e1, e3]
    by_cases hc2 : dget l high > dget l low
    · rw [if_pos hc2]
      refine ⟨low + 1, rfl, by omega, ?_⟩
      rw [e3, max_eq_right (le_of_lt hc1), max_eq_right (le_of_lt hc2)]
    · rw [if_neg hc2]
      refine ⟨low, rfl, by omega, ?_⟩
      rw [e1, max_eq_right (le_of_lt hc1), max_eq_left (not_lt.mp hc2)]
  · rw [if_neg hc1]
    rw [getE_eq_ok _ (low + 1) (by omega), ok_bind, getE_eq_ok _ lm (by omega), ok_bind, e2, e3]
    by_cases hc2 : dget l high > dget l lm
    · rw [if_pos hc2]
      refine ⟨low + 1, rfl, by omega, ?_⟩
      rw [e3, max_eq_left (not_lt.mp hc1), max_eq_right (le_of_lt hc2)]
    · rw [if_neg hc2]
      refine ⟨lm, rfl, by omega, ?_⟩
      rw [e2, max_eq_left (not_lt.mp hc1), max_eq_left (not_lt.mp hc2)]

theorem placeHigh_spec (l : List α) (low high lm hm : Nat)
    (hlh : low + 1 < high) (hhn : high < l.length) (hhm : high < hm) (hhmn : hm < l.length) :
    ∃ hm2, placeHigh l low high lm hm =
        .ok ⟨lswap l low (high - 1), low - 1, high - 1, lm, hm2⟩ ∧
      high - 1 ≤ hm2 ∧ hm2 < l.length ∧
      dget (lswap l low (high - 1)) hm2 =
        min (min (dget l hm) (dget l high)) (dget l low) := by
  have hlown : low < l.length := by omega
  have hh1 : high - 1 < l.length := by omega
  have e1 : dget (lswap l low (high - 1)) high = dget l high :=
    dget_lswap_ne l _ _ _ (by omega) (by omega)
  have e2 : dget (lswap l low (high - 1)) hm = dget l hm :=
    dget_lswap_ne l _ _ _ (by omega) (by omega)
  have e3 : dget (lswap l low (high - 1)) (high - 1) = dget l low :=
    dget_lswap_right l _ _ hlown hh1
  unfold placeHigh
  rw [assertE_eq_ok _ hlh, ok_bind, swapE_eq_ok l low (high - 1) hlown hh1, ok_bind,
    getE_eq_ok _ high (by rw [length_lswap]; omega), ok_bind,
    getE_eq_ok _ hm (by rw [length_lswap]; omega), ok_bind, e1, e2]
  by_cases hc1 : dget l high < dget l hm
  · rw [if_pos hc1]
    rw [getE_eq_ok _ (high - 1) (by rw [length_lswap]; omega), ok_bind,
      getE_eq_ok _ high (by rw [length_lswap]; omega), ok_bind, e1, e3]
    by_cases hc2 : dget l low < dget l high
    · rw [if_pos hc2]
      refine ⟨high - 1, rfl, by omega, by omega, ?_⟩
      rw [e3, min_eq_right (le_of_lt hc1), min_eq_right (le_of_lt hc2)]
    · rw [if_neg hc2]
      refine ⟨high, rfl, by omega, by omega, ?_⟩
      rw [e1, min_eq_right (le_of_lt hc1), min_eq_left (not_lt.mp hc2)]
  · rw [if_neg hc1]
    rw [getE_eq_ok _ (high - 1) (by rw [length_lswap]; omega), ok_bind,
      getE_eq_ok _ hm (by rw [length_lswap]; omega), ok_bind, e2, e3]
    by_cases hc2 : dget l low < dget l hm
    · rw [if_pos hc2]
      refine ⟨high - 1, rfl, by omega, by omega, ?_⟩
      rw [e3, min_eq_left (not_lt.mp hc1), min_eq_right (le_of_lt hc2)]
    · rw [if_neg hc2]
      refine ⟨hm, rfl, by omega, by omega, ?_⟩
      rw [e2, min_eq_left (not_lt.mp hc1), min_eq_left (not_lt.mp hc2)]

theorem placeSplit_spec (l : List α) (low high lm hm : Nat)
    (hlh : low < high) (hhn : high < l.length) (hlm : lm < low)
    (hhm : high < hm) (hhmn : hm < l.length) :
    ∃ l1 lm2 hm2, placeSplit l low high lm hm = .ok ⟨l1, low, high, lm2, hm2⟩ ∧
      l1.Perm l ∧ l1.length = l.length ∧
      (∀ k, k ≠ low → k ≠ high → dget l1 k = dget l k) ∧
      dget l1 low = min (dget l low) (dget l high) ∧
      dget l1 high = max (dget l low) (dget l high) ∧
      lm2 ≤ low ∧ dget l1 lm2 = max (dget l lm) (dget l1 low) ∧
      high ≤ hm2 ∧ hm2 < l.length ∧ dget l1 hm2 = min (dget l hm) (dget l1 high) := by
  have hlown : low < l.length := by omega
  have hlmn : lm < l.length := by omega
  unfold placeSplit
  rw [getE_eq_ok _ low (by omega), ok_bind, getE_eq_ok _ high (by omega), ok_bind]
  by_cases hs : dget l low > dget l high
  case pos =>
    rw [if_pos hs, swapE_eq_ok l low high hlown hhn, ok_bind]
    beta_reduce
    have f1 : dget (lswap l low high) low = dget l high := dget_lswap_left l _ _ hlown hhn
    have f2 : dget (lswap l low high) high = dget l low := dget_lswap_right l _ _ hlown hhn
    have f3 : dget (lswap l low high) lm = dget l lm :=
      dget_lswap_ne l _ _ _ (by omega) (by omega)
    have f4 : dget (lswap l low high) hm = dget l hm :=
      dget_lswap_ne l _ _ _ (by omega) (by omega)
    rw [getE_eq_ok _ low (by rw [length_lswap]; omega), ok_bind,
      getE_eq_ok _ lm (by rw [length_lswap]; omega), ok_bind, f1, f3]
    have g5 : dget (lswap l low high) (if dget l high > dget l lm then low else lm)
        = max (dget l lm) (dget l high) := by
      by_cases hc1 : dget l high > dget l lm
      · rw [if_pos hc1, f1, max_eq_right (le_of_lt hc1)]
      · rw [if_neg hc1, f3, max_eq_left (not_lt.mp hc1)]
    rw [getE_eq_ok _ high (by rw [length_lswap]; omega), ok_bind,
      getE_eq_ok _ hm (by rw [length_lswap]; omega), ok_bind, f2, f4]
    refine ⟨lswap l low high, if dget l high > dget l lm then low else lm,
      if dget l low < dget l hm then high else hm, rfl,
      lswap_perm l low high hlown hhn, length_lswap l low high,
      fun k hk1 hk2 => dget_lswap_ne l low high k hk1 hk2, ?_, ?_, ?_, ?_, ?_, ?_, ?_⟩
    · rw [f1, min_eq_right (le_of_lt hs)]
    · rw [f2, max_eq_left (le_of_lt hs)]
    · by_cases hc1 : dget l high > dget l lm
      · rw [if_pos hc1]
      · rw [if_neg hc1]; omega
    · rw [g5, f1]
    · by_cases hc2 : dget l low < dget l hm
      · rw [if_pos hc2]
      · rw [if_neg hc2]; omega
    · by_cases hc2 : dget l low < dget l hm
      · rw [if_pos hc2]; omega
      · rw [if_neg hc2]; omega
    · have : dget (lswap l low high) (if dget l low < dget l hm then high else hm)
          = min (dget l hm) (dget l low) := by
        by_cases hc2 : dget l low < dget l hm
        · rw [if_pos hc2, f2, min_eq_right (le_of_lt hc2)]
        · rw [if_neg hc2, f4, min_eq_left (not_lt.mp hc2)]
      rw [this, f2]
  case neg =>
    rw [if_neg hs]
    have hnle : dget l low ≤ dget l high := not_lt.mp hs
    rw [pure_ok, ok_bind]
    beta_reduce
    rw [getE_eq_ok _ low (by omega), ok_bind, getE_eq_ok _ lm (by omega), ok_bind]
    rw [getE_eq_ok _ high (by omega), ok_bind, getE_eq_ok _ hm (by omega), ok_bind]
    refine ⟨l, if dget l low > dget l lm then low else lm,
      if dget l high < dget l hm then high else hm, rfl,
      List.Perm.refl l, rfl, fun k _ _ => rfl, ?_, ?_, ?_, ?_, ?_, ?_, ?_⟩
    · rw [min_eq_left hnle]
    · rw [max_eq_right hnle]
    · by_cases hc1 : dget l low > dget l lm
      · rw [if_pos hc1]
      · rw [if_neg hc1]; omega
    · by_cases hc1 : dget l low > dget l lm
      · rw [if_pos hc1, max_eq_right (le_of_lt hc1)]
      · rw [if_neg hc1, max_eq_left (not_lt.mp hc1)]
    · by_cases hc2 : dget l high < dget l hm
      · rw [if_pos hc2]
      · rw [if_neg hc2]; omega
    · by_cases hc2 : dget l high < dget l hm
      · rw [if_pos hc2]; omega
      · rw [if_neg hc2]; omega
    · by_cases hc2 : dget l high < dget l hm
      · rw [if_pos hc2, min_eq_right (le_of_lt hc2)]
      · rw [if_neg hc2, min_eq_left (not_lt.mp hc2)]

/-! ### The loop invariant -/

/-- The invariant of the main partition loop, checked at every iteration:
well-formedness bounds of the four loop variables and the three ordering
invariants of the source (lines 57-67). -/
structure Inv (nslice : Nat) (s : PartState α) : Prop where
  hlen : s.l.length = nslice
  hlh : s.low < s.high
  hhn : s.high < nslice
  hlm : s.low_max ≤ s.low
  hhm : s.high ≤ s.high_min
  hhmn : s.high_min < nslice
  inv1 : dget s.l s.low_max ≤ dget s.l s.high_min
  inv2 : ∀ i, i ≤ s.low → dget s.l i ≤ dget s.l s.low_max
  inv3 : ∀ i, i < nslice → s.high ≤ i → dget s.l s.high_min ≤ dget s.l i

theorem partitionStep_inl (nslice : Nat) (s : PartState α) (hInv : Inv nslice s)
    (hgap : s.low + 3 < s.high) :
    ∃ s1, partitionStep nslice s = .ok (.inl s1) ∧ Inv nslice s1 ∧
      s1.high - s1.low + 2 = s.high - s.low ∧ s1.l.Perm s.l := by
  obtain ⟨l, low, high, lm, hm⟩ := s
  obtain ⟨hlen, hlh, hhn, hlm, hhm, hhmn, inv1, inv2, inv3⟩ := hInv
  simp only at hlen hlh hhn hlm hhm hhmn inv1 inv2 inv3 hgap
  have hA : low + 1 < l.length := by omega
  have hB : high - 1 < l.length := by omega
  simp only [partitionStep]
  rw [getE_eq_ok l lm (by omega), ok_bind, getE_eq_ok l hm (by omega), ok_bind,
    assertE_eq_ok _ inv1, ok_bind, if_neg (by omega : ¬ low + 3 ≥ high),
    getE_eq_ok l (low + 1) hA, ok_bind, getE_eq_ok l (high - 1) hB, ok_bind]
  rcases hplace : placeOf (low + 2) (nslice - (high - 1)) (dget l (low + 1))
      (dget l (high - 1)) (dget l lm) (dget l hm) with _ | _ | _
  case LOW =>
    simp only []
    obtain ⟨lm2, heq, hlm2, hmax⟩ :=
      placeLow_spec l (low + 1) (high - 1) lm hm (by omega) (by omega) (by omega)
    rw [heq, ok_bind, pure_ok]
    have hswl : low + 1 + 1 < l.length := by omega
    have u1 : dget (lswap l (low + 1 + 1) (high - 1)) (low + 1) = dget l (low + 1) :=
      dget_lswap_ne l _ _ _ (by omega) (by omega)
    have u2 : dget (lswap l (low + 1 + 1) (high - 1)) (low + 1 + 1) = dget l (high - 1) :=
      dget_lswap_left l _ _ hswl hB
    have u3 : dget (lswap l (low + 1 + 1) (high - 1)) hm = dget l hm :=
      dget_lswap_ne l _ _ _ (by omega) (by omega)
    have hvlm : dget l lm ≤ dget (lswap l (low + 1 + 1) (high - 1)) lm2 := by
      rw [hmax]; exact le_trans (le_max_left _ _) (le_max_left _ _)
    have hvA : dget l (low + 1) ≤ dget (lswap l (low + 1 + 1) (high - 1)) lm2 := by
      rw [hmax]; exact le_trans (le_max_right _ _) (le_max_left _ _)
    have hvB : dget l (high - 1) ≤ dget (lswap l (low + 1 + 1) (high - 1)) lm2 := by
      rw [hmax]; exact le_max_right _ _
    refine ⟨_, rfl, ?_, by simp only; omega,
      lswap_perm l (low + 1 + 1) (high - 1) hswl hB⟩
    refine ⟨by simp only [length_lswap]; omega, by simp only; omega, by simp only; omega,
      by simp only; omega, by simp only; omega, by simp only; omega, ?_, ?_, ?_⟩
    · simp only
      rw [u3]
      rcases placeOf_low _ _ _ _ _ _ hplace with hforced | hbal
      · rw [hmax, max_eq_left (le_of_lt hforced.1), max_eq_left (le_of_lt hforced.2)]
        exact inv1
      · rw [hmax]
        exact max_le (max_le inv1 hbal.1) hbal.2
    · simp only
      intro i hi
      rcases Nat.lt_or_ge i (low + 1) with hilt | hige
      · have : dget (lswap l (low + 1 + 1) (high - 1)) i = dget l i :=
          dget_lswap_ne l _ _ _ (by omega) (by omega)
        rw [this]
        exact le_trans (inv2 i (by omega)) hvlm
      · rcases Nat.eq_or_lt_of_le hige with h1 | h2
        · rw [← h1, u1]; exact hvA
        · have : i = low + 1 + 1 := by omega
          rw [this, u2]; exact hvB
    · simp only
      intro i hi hhi
      have : dget (lswap l (low + 1 + 1) (high - 1)) i = dget l i :=
        dget_lswap_ne l _ _ _ (by omega) (by omega)
      rw [this, u3]
      exact inv3 i (by omega) (by omega)
  case HIGH =>
    simp only []
    obtain ⟨hm2, heq, hhm2, hhm2n, hmin⟩ :=
      placeHigh_spec l (low + 1) (high - 1) lm hm (by omega) (by omega) (by omega) (by omega)
    rw [heq, ok_bind, pure_ok]
    have hswh : high - 1 - 1 < l.length := by omega
    have u1 : dget (lswap l (low + 1) (high - 1 - 1)) (high - 1) = dget l (high - 1) :=
      dget_lswap_ne l _ _ _ (by omega) (by omega)
    have u2 : dget (lswap l (low + 1) (high - 1 - 1)) (high - 1 - 1) = dget l (low + 1) :=
      dget_lswap_right l _ _ hA hswh
    have u3 : dget (lswap l (low + 1) (high - 1 - 1)) lm = dget l lm :=
      dget_lswap_ne l _ _ _ (by omega) (by omega)
    have hvhm : dget (lswap l (low + 1) (high - 1 - 1)) hm2 ≤ dget l hm := by
      rw [hmin]; exact le_trans (min_le_left _ _) (min_le_left _ _)
    have hvB : dget (lswap l (low + 1) (high - 1 - 1)) hm2 ≤ dget l (high - 1) := by
      rw [hmin]; exact le_trans (min_le_left _ _) (min_le_right _ _)
    have hvA : dget (lswap l (low + 1) (high - 1 - 1)) hm2 ≤ dget l (low + 1) := by
      rw [hmin]; exact min_le_right _ _
    refine ⟨_, rfl, ?_, by simp only; omega, lswap_perm l (low + 1) (high - 1 - 1) hA hswh⟩
    refine ⟨by simp only [length_lswap]; omega, by simp only; omega, by simp only; omega,
      by simp only; omega, by simp only; omega, by simp only; omega, ?_, ?_, ?_⟩
    · simp only
      rw [u3]
      rcases placeOf_high _ _ _ _ _ _ hplace with hforced | hbal
      · rw [hmin, min_eq_left (le_of_lt hforced.2), min_eq_left (le_of_lt hforced.1)]
        exact inv1
      · rw [hmin]
        exact le_min (le_min inv1 hbal.2) hbal.1
    · simp only
      intro i hi
      have : dget (lswap l (low + 1) (high - 1 - 1)) i = dget l i :=
        dget_lswap_ne l _ _ _ (by omega) (by omega)
      rw [this, u3]
      exact inv2 i (by omega)
    · simp only
      intro i hi hhi
      rcases Nat.lt_or_ge i (high - 1) with hilt | hige
      · have : i = high - 1 - 1 := by omega
        rw [this, u2]; exact hvA
      · rcases Nat.eq_or_lt_of_le hige with h1 | h2
        · rw [← h1, u1]; exact hvB
        · have : dget (lswap l (low + 1) (high - 1 - 1)) i = dget l i :=
            dget_lswap_ne l _ _ _ (by omega) (by omega)
          rw [this]
          exact le_trans hvhm (inv3 i (by omega) (by omega))
  case SPLIT =>
    simp only []
    obtain ⟨l1, lm2, hm2, heq, hperm, hlen1, huntouched, hlo, hhi, hlm2, hlmv, hhm2, hhm2n, hhmv⟩ :=
      placeSplit_spec l (low + 1) (high - 1) lm hm (by omega) (by omega) (by omega)
        (by omega) (by omega)
    rw [heq, ok_bind, pure_ok]
    obtain ⟨hsp1, hsp2⟩ := placeOf_split _ _ _ _ _ _ hplace
    have hvlm : dget l lm ≤ dget l1 lm2 := by rw [hlmv]; exact le_max_left _ _
    have hvA : dget l1 (low + 1) ≤ dget l1 lm2 := by rw [hlmv]; exact le_max_right _ _
    have hvhm : dget l1 hm2 ≤ dget l hm := by rw [hhmv]; exact min_le_left _ _
    have hvB : dget l1 hm2 ≤ dget l1 (high - 1) := by rw [hhmv]; exact min_le_right _ _
    refine ⟨_, rfl, ?_, by simp only; omega, hperm⟩
    refine ⟨by simp only [hlen1]; omega, by simp only; omega, by simp only; omega,
      by simp only; omega, by simp only; omega, by simp only; omega, ?_, ?_, ?_⟩
    · simp only
      rw [hlmv, hhmv]
      refine max_le (le_min inv1 ?_) (le_min ?_ ?_)
      · rw [hhi]
        rcases hsp1 with h | h
        · exact le_trans h (le_max_left _ _)
        · exact le_trans h (le_max_right _ _)
      · rw [hlo]
        rcases hsp2 with h | h
        · exact le_trans (min_le_left _ _) h
        · exact le_trans (min_le_right _ _) h
      · rw [hlo, hhi]
        exact le_trans (min_le_left _ _) (le_max_left _ _)
    · simp only
      intro i hi
      rcases Nat.lt_or_ge i (low + 1) with hilt | hige
      · rw [huntouched i (by omega) (by omega)]
        exact le_trans (inv2 i (by omega)) hvlm
      · have : i = low + 1 := by omega
        rw [this]; exact hvA
    · simp only
      intro i hi hhi
      rcases Nat.eq_or_lt_of_le hhi with h1 | h2
      · rw [← h1]; exact hvB
      · rw [huntouched i (by omega) (by omega)]
        exact le_trans hvhm (inv3 i (by omega) (by omega))

/-! ### The cleanup branch -/

/-- The gap values (strictly between `low` and `high`) are in ascending
order. -/
def GapSorted (l : List α) (low high : Nat) : Prop :=
  ∀ i j, low < i → i ≤ j → j < high → dget l i ≤ dget l j

theorem selsortGap_spec (l : List α) (low high : Nat) (hlh : low < high)
    (hgap : high ≤ low + 3) (hhn : high < l.length) :
    ∃ l1, selsortGap l low (high - low) = .ok l1 ∧ l1.Perm l ∧ l1.length = l.length ∧
      (∀ k, k ≤ low ∨ high ≤ k → dget l1 k = dget l k) ∧ GapSorted l1 low high := by
  have h3 : high - low = 1 ∨ high - low = 2 ∨ high - low = 3 := by omega
  rcases h3 with h | h | h
  · rw [h]
    refine ⟨l, rfl, List.Perm.refl l, rfl, fun k _ => rfl, ?_⟩
    intro i j hi hij hj
    exact ((by omega : False)).elim
  · rw [h]
    refine ⟨l, rfl, List.Perm.refl l, rfl, fun k _ => rfl, ?_⟩
    intro i j hi hij hj
    have : i = j := by omega
    rw [this]
  · rw [h]
    unfold selsortGap
    rw [show List.range' 1 (3 - 1) = [1, 2] from rfl]
    simp only [selsortOuter]
    rw [show List.range' (1 + 1) (3 - (1 + 1)) = [2] from rfl]
    simp only [selsortInner]
    have hb1 : low + 1 < l.length := by omega
    have hb2 : low + 2 < l.length := by omega
    rw [getE_eq_ok l (low + 1) hb1, ok_bind, getE_eq_ok l (low + 2) hb2, ok_bind]
    by_cases hc : dget l (low + 1) > dget l (low + 2)
    · rw [if_pos hc, swapE_eq_ok l (low + 1) (low + 2) hb1 hb2, ok_bind]
      simp only [selsortInner, selsortOuter, ok_bind]
      have g1 : dget (lswap l (low + 1) (low + 2)) (low + 1) = dget l (low + 2) :=
        dget_lswap_left l _ _ hb1 hb2
      have g2 : dget (lswap l (low + 1) (low + 2)) (low + 2) = dget l (low + 1) :=
        dget_lswap_right l _ _ hb1 hb2
      refine ⟨lswap l (low + 1) (low + 2), rfl, lswap_perm l _ _ hb1 hb2,
        length_lswap l _ _, ?_, ?_⟩
      · intro k hk
        exact dget_lswap_ne l _ _ _ (by omega) (by omega)
      · intro i j hi hij hj
        rcases eq_or_lt_of_le hij with rfl | hlt
        · exact le_refl _
        · have hi1 : i = low + 1 := by omega
          have hj2 : j = low + 2 := by omega
          rw [hi1, hj2, g1, g2]
          exact le_of_lt hc
    · rw [if_neg hc, pure_ok, ok_bind]
      simp only [selsortInner, selsortOuter, ok_bind]
      refine ⟨l, rfl, List.Perm.refl l, rfl, fun k _ => rfl, ?_⟩
      intro i j hi hij hj
      rcases eq_or_lt_of_le hij with rfl | hlt
      · exact le_refl _
      · have hi1 : i = low + 1 := by omega
        have hj2 : j = low + 2 := by omega
        rw [hi1, hj2]
        exact not_lt.mp hc

theorem migrate_spec (l : List α) (hm high : Nat) (hhmn : hm < l.length)
    (hhn : high < l.length) :
    ∀ k low lm, low + k + 1 = high → lm ≤ low →
      (∀ i, i ≤ low → dget l i ≤ dget l lm) → dget l lm ≤ dget l hm →
      GapSorted l low high →
      ∃ low2 lm2, migrate l hm k low lm = .ok (low2, lm2) ∧
        low ≤ low2 ∧ low2 + 1 ≤ high ∧ lm2 ≤ low2 ∧
        (∀ i, i ≤ low2 → dget l i ≤ dget l lm2) ∧
        dget l lm2 ≤ dget l hm ∧
        (∀ i, low2 < i → i < high → dget l hm < dget l i) := by
  intro k
  induction k with
  | zero =>
    intro low lm hk hlm hmax hlmhm hgs
    refine ⟨low, lm, rfl, le_refl _, by omega, hlm, hmax, hlmhm, ?_⟩
    intro i hi1 hi2
    exact ((by omega : False)).elim
  | succ k ih =>
    intro low lm hk hlm hmax hlmhm hgs
    have hb1 : low + 1 < l.length := by omega
    simp only [migrate]
    rw [getE_eq_ok l (low + 1) hb1, ok_bind, getE_eq_ok l hm hhmn, ok_bind]
    by_cases hc : dget l (low + 1) ≤ dget l hm
    · rw [if_pos hc]
      rw [getE_eq_ok l lm (by omega), ok_bind]
      have hnext : ∀ i, i ≤ low + 1 →
          dget l i ≤ dget l (if dget l (low + 1) > dget l lm then low + 1 else lm) := by
        intro i hi
        by_cases hc2 : dget l (low + 1) > dget l lm
        · rw [if_pos hc2]
          rcases Nat.lt_or_ge i (low + 1) with h1 | h1
          · exact le_trans (hmax i (by omega)) (le_of_lt hc2)
          · have : i = low + 1 := by omega
            rw [this]
        · rw [if_neg hc2]
          rcases Nat.lt_or_ge i (low + 1) with h1 | h1
          · exact hmax i (by omega)
          · have : i = low + 1 := by omega
            rw [this]
            exact not_lt.mp hc2
      have hlmhm2 : dget l (if dget l (low + 1) > dget l lm then low + 1 else lm) ≤ dget l hm := by
        by_cases hc2 : dget l (low + 1) > dget l lm
        · rw [if_pos hc2]; exact hc
        · rw [if_neg hc2]; exact hlmhm
      obtain ⟨low2, lm2, heq, h1, h2, h3, h4, h5, h6⟩ :=
        ih (low + 1) (if dget l (low + 1) > dget l lm then low + 1 else lm)
          (by omega) (by by_cases hc2 : dget l (low + 1) > dget l lm
                         · rw [if_pos hc2]
                         · rw [if_neg hc2]; omega)
          hnext hlmhm2 (fun i j hi hij hj => hgs i j (by omega) hij hj)
      exact ⟨low2, lm2, heq, by omega, h2, h3, h4, h5, h6⟩
    · rw [if_neg hc]
      refine ⟨low, lm, rfl, le_refl _, by omega, hlm, hmax, hlmhm, ?_⟩
      intro i hi1 hi2
      have hlt : dget l hm < dget l (low + 1) := not_le.mp hc
      rcases Nat.eq_or_lt_of_le (by omega : low + 1 ≤ i) with h1 | h2
      · rw [← h1]; exact hlt
      · exact lt_of_lt_of_le hlt (hgs (low + 1) i (by omega) (by omega) (by omega))

theorem cleanup_spec (l : List α) (low high lm hm : Nat)
    (hlh : low < high) (hhn : high < l.length) (hlm : lm ≤ low)
    (hhm : high ≤ hm) (hhmn : hm < l.length)
    (inv1 : dget l lm ≤ dget l hm)
    (inv2 : ∀ i, i ≤ low → dget l i ≤ dget l lm)
    (inv3 : ∀ i, i < l.length → high ≤ i → dget l hm ≤ dget l i)
    (hgap : high ≤ low + 3) :
    ∃ p l2, cleanup l low high lm hm = .ok (p, l2) ∧ l2.length = l.length ∧ p < high ∧
      (∀ i, i ≤ p → dget l2 i ≤ dget l2 p) ∧
      (∀ i, i < l.length → p ≤ i → dget l2 p ≤ dget l2 i) ∧ l2.Perm l := by
  obtain ⟨l1, hsel, hperm1, hlen1, huntouched, hgs⟩ := selsortGap_spec l low high hlh hgap hhn
  have hhmn1 : hm < l1.length := by omega
  have hhn1 : high < l1.length := by omega
  obtain ⟨low2, lm2, hmig, hlow2, hlow2h, hlm2, hA, hB, hrem⟩ :=
    migrate_spec l1 hm high hhmn1 hhn1 (high - low - 1) low lm (by omega) hlm
      (fun i hi => by
        rw [huntouched i (Or.inl hi), huntouched lm (Or.inl hlm)]
        exact inv2 i hi)
      (by rw [huntouched lm (Or.inl hlm), huntouched hm (Or.inr hhm)]; exact inv1)
      hgs
  unfold cleanup
  rw [assertE_eq_ok _ hlh, ok_bind, hsel, ok_bind, hmig, ok_bind]
  have hlow2n : low2 < l1.length := by omega
  have hlm2n : lm2 < l1.length := by omega
  have hut2 : ∀ i, i < l.length → high ≤ i → dget l1 hm ≤ dget l1 i := by
    intro i hi hhi
    rw [huntouched i (Or.inr hhi), huntouched hm (Or.inr hhm)]
    exact inv3 i hi hhi
  by_cases hne : lm2 ≠ low2
  · rw [if_pos hne, swapE_eq_ok l1 lm2 low2 hlm2n hlow2n, ok_bind]
    simp only []
    have w1 : dget (lswap l1 lm2 low2) lm2 = dget l1 low2 :=
      dget_lswap_left l1 _ _ hlm2n hlow2n
    have w2 : dget (lswap l1 lm2 low2) low2 = dget l1 lm2 :=
      dget_lswap_right l1 _ _ hlm2n hlow2n
    have w3 : dget (lswap l1 lm2 low2) hm = dget l1 hm :=
      dget_lswap_ne l1 _ _ _ (by omega) (by omega)
    rw [getE_eq_ok _ lm2 (by rw [length_lswap]; omega), ok_bind,
      getE_eq_ok _ hm (by rw [length_lswap]; omega), ok_bind, w1, w3,
      assertE_eq_ok _ (le_trans (hA low2 (le_refl _)) hB), ok_bind, pure_ok]
    refine ⟨low2, lswap l1 lm2 low2, rfl, by rw [length_lswap]; omega, by omega, ?_, ?_,
      (lswap_perm l1 lm2 low2 hlm2n hlow2n).trans hperm1⟩
    · intro i hi
      rw [w2]
      rcases eq_or_ne i low2 with rfl | hne2
      · rw [w2]
      · rcases eq_or_ne i lm2 with rfl | hne3
        · rw [w1]
          exact hA low2 (le_refl _)
        · rw [dget_lswap_ne l1 _ _ _ hne3 hne2]
          exact hA i hi
    · intro i hi hpi
      rw [w2]
      rcases eq_or_ne i low2 with rfl | hne2
      · rw [w2]
      · have hgt : low2 < i := by omega
        have hne3 : i ≠ lm2 := by omega
        rw [dget_lswap_ne l1 _ _ _ hne3 hne2]
        rcases Nat.lt_or_ge i high with h1 | h1
        · exact le_of_lt (lt_of_le_of_lt hB (hrem i hgt h1))
        · exact le_trans hB (hut2 i (by omega) h1)
  · rw [if_neg hne]
    have heq2 : lm2 = low2 := by omega
    rw [pure_ok, ok_bind]
    simp only []
    rw [getE_eq_ok l1 lm2 hlm2n, ok_bind, getE_eq_ok l1 hm hhmn1, ok_bind,
      assertE_eq_ok _ hB, ok_bind, pure_ok]
    refine ⟨low2, l1, rfl, by omega, by omega, ?_, ?_, hperm1⟩
    · intro i hi
      rw [← heq2]
      exact hA i (by omega)
    · intro i hi hpi
      rw [← heq2]
      rcases Nat.eq_or_lt_of_le hpi with h1 | h2
      · rw [heq2, h1]
      · rcases Nat.lt_or_ge i high with h3 | h3
        · exact le_of_lt (lt_of_le_of_lt hB (hrem i (by omega) h3))
        · exact le_trans hB (hut2 i (by omega) h3)

/-- The facts established about the result of `partition`. -/
structure PartPost (nslice p : Nat) (l2 : List α) : Prop where
  hlen : l2.length = nslice
  hp : p < nslice
  post1 : ∀ i, i ≤ p → dget l2 i ≤ dget l2 p
  post2 : ∀ i, i < nslice → p ≤ i → dget l2 p ≤ dget l2 i

theorem partitionStep_inr (nslice : Nat) (s : PartState α) (hInv : Inv nslice s)
    (hgap : s.high ≤ s.low + 3) :
    ∃ p l2, partitionStep nslice s = .ok (.inr (p, l2)) ∧ PartPost nslice p l2 ∧
      l2.Perm s.l := by
  obtain ⟨l, low, high, lm, hm⟩ := s
  obtain ⟨hlen, hlh, hhn, hlm, hhm, hhmn, inv1, inv2, inv3⟩ := hInv
  simp only at hlen hlh hhn hlm hhm hhmn inv1 inv2 inv3 hgap
  obtain ⟨p, l2, hclean, hlen2, hph, hpost1, hpost2, hperm⟩ :=
    cleanup_spec l low high lm hm hlh (by omega) hlm hhm (by omega) inv1 inv2
      (fun i hi hhi => inv3 i (by omega) hhi) hgap
  simp only [partitionStep]
  rw [getE_eq_ok l lm (by omega), ok_bind, getE_eq_ok l hm (by omega), ok_bind,
    assertE_eq_ok _ inv1, ok_bind, if_pos (by omega : low + 3 ≥ high),
    hclean, ok_bind, pure_ok]
  exact ⟨p, l2, rfl,
    ⟨by omega, by omega, hpost1, fun i hi hpi => hpost2 i (by omega) hpi⟩, hperm⟩

/-! ### The full loop and `partition` -/

theorem partitionLoop_spec (nslice : Nat) : ∀ (fuel : Nat) (s : PartState α),
    Inv nslice s → s.high - s.low < 2 * fuel →
    ∃ p l2, partitionLoop nslice fuel s = .ok (p, l2) ∧ PartPost nslice p l2 ∧
      l2.Perm s.l := by
  intro fuel
  induction fuel with
  | zero =>
    intro s hInv hf
    exact ((by omega : False)).elim
  | succ fuel ih =>
    intro s hInv hf
    by_cases hgap : s.high ≤ s.low + 3
    · obtain ⟨p, l2, hstep, hpost, hperm⟩ := partitionStep_inr nslice s hInv hgap
      refine ⟨p, l2, ?_, hpost, hperm⟩
      simp only [partitionLoop]
      rw [hstep]
    · obtain ⟨s1, hstep, hInv1, hgap1, hperm1⟩ := partitionStep_inl nslice s hInv (by omega)
      obtain ⟨p, l2, hloop, hpost, hperm2⟩ := ih s1 hInv1 (by omega)
      refine ⟨p, l2, ?_, hpost, hperm2.trans hperm1⟩
      simp only [partitionLoop]
      rw [hstep]
      exact hloop

theorem initState_inv (l : List α) (h2 : 2 ≤ l.length) : Inv l.length (initState l) := by
  have h0 : 0 < l.length := by omega
  have h1 : l.length - 1 < l.length := by omega
  have hlen : (seedList l).length = l.length := by
    unfold seedList
    by_cases hs : dget l 0 > dget l (l.length - 1)
    · rw [if_pos hs, length_lswap]
    · rw [if_neg hs]
  have hinv1 : dget (seedList l) 0 ≤ dget (seedList l) (l.length - 1) := by
    unfold seedList
    by_cases hs : dget l 0 > dget l (l.length - 1)
    · rw [if_pos hs, dget_lswap_left l _ _ h0 h1, dget_lswap_right l _ _ h0 h1]
      exact le_of_lt hs
    · rw [if_neg hs]
      exact not_lt.mp hs
  refine ⟨hlen, (by omega : (0 : Nat) < l.length - 1), (by omega : l.length - 1 < l.length),
    le_refl 0, le_refl (l.length - 1), (by omega : l.length - 1 < l.length), hinv1, ?_, ?_⟩
  · show ∀ i, i ≤ 0 → dget (seedList l) i ≤ dget (seedList l) 0
    intro i hi
    have hz : i = 0 := by omega
    rw [hz]
  · show ∀ i, i < l.length → l.length - 1 ≤ i →
      dget (seedList l) (l.length - 1) ≤ dget (seedList l) i
    intro i hi hhi
    have hz : i = l.length - 1 := by omega
    rw [hz]

theorem seedList_perm (l : List α) (h2 : 2 ≤ l.length) : (seedList l).Perm l := by
  unfold seedList
  by_cases hs : dget l 0 > dget l (l.length - 1)
  · rw [if_pos hs]
    exact lswap_perm l _ _ (by omega) (by omega)
  · rw [if_neg hs]

theorem partition_eq (l : List α) (h2 : 2 ≤ l.length) :
    partition l = partitionLoop l.length l.length (initState l) := by
  unfold partition
  rw [if_neg (by omega : ¬ l.length < 2)]
  rw [getE_eq_ok l 0 (by omega), ok_bind, getE_eq_ok l (l.length - 1) (by omega), ok_bind]
  unfold initState seedList
  by_cases hs : dget l 0 > dget l (l.length - 1)
  · rw [if_pos hs, swapE_eq_ok l 0 (l.length - 1) (by omega) (by omega), ok_bind, if_pos hs]
  · rw [if_neg hs, pure_ok, ok_bind, if_neg hs]

theorem partition_spec (l : List α) (h2 : 2 ≤ l.length) :
    ∃ p l2, partition l = .ok (p, l2) ∧ PartPost l.length p l2 ∧ l2.Perm l := by
  rw [partition_eq l h2]
  obtain ⟨p, l2, hloop, hpost, hperm⟩ :=
    partitionLoop_spec l.length l.length (initState l) (initState_inv l h2)
      (by show l.length - 1 - 0 < 2 * l.length; omega)
  exact ⟨p, l2, hloop, hpost, hperm.trans (seedList_perm l h2)⟩

/-! ### Reachable loop states -/

/-- `Reaches nslice s t`: the main loop of `partition`, started at state `s`,
reaches state `t` at the top of some later iteration. -/
inductive Reaches (nslice : Nat) (s : PartState α) : PartState α → Prop
  | refl : Reaches nslice s s
  | tail {t u : PartState α} : Reaches nslice s t →
      partitionStep nslice t = .ok (.inl u) → Reaches nslice s u

theorem reaches_inv (l : List α) (h2 : 2 ≤ l.length) (s : PartState α)
    (hr : Reaches l.length (initState l) s) : Inv l.length s := by
  induction hr with
  | refl => exact initState_inv l h2
  | @tail t u hr hstep ih =>
    by_cases hgap : t.high ≤ t.low + 3
    · obtain ⟨p, l2, hstep2, _, _⟩ := partitionStep_inr l.length t ih hgap
      rw [hstep2] at hstep
      simp at hstep
    · obtain ⟨s1, hstep1, hInv1, _, _⟩ := partitionStep_inl l.length t ih (by omega)
      rw [hstep1] at hstep
      simp only [Except.ok.injEq, Sum.inl.injEq] at hstep
      rw [← hstep]
      exact hInv1

/-! ### The sort driver -/

theorem qsort_spec : ∀ (fuel : Nat) (l : List α), l.length < fuel →
    ∃ l2, qsort fuel l = .ok l2 ∧ l2.Perm l ∧ List.Sorted (· ≤ ·) l2 := by
  intro fuel
  induction fuel with
  | zero =>
    intro l hl
    exact ((by omega : False)).elim
  | succ fuel ih =>
    intro l hl
    by_cases hsmall : l.length ≤ 1
    · refine ⟨l, ?_, List.Perm.refl l, ?_⟩
      · simp only [qsort]
        rw [if_pos hsmall]
      · match l, hsmall with
        | [], _ => exact List.sorted_nil
        | [a], _ => exact List.sorted_singleton a
    · have h2 : 2 ≤ l.length := by omega
      obtain ⟨p, l2, hpart, hpost, hperm⟩ := partition_spec l h2
      obtain ⟨hlen2, hp, hpost1, hpost2⟩ := hpost
      have htake : (l2.take p).length < fuel := by
        rw [List.length_take]
        omega
      have hdrop : (l2.drop (p + 1)).length < fuel := by
        rw [List.length_drop]
        omega
      obtain ⟨left, hql, hpl, hsl⟩ := ih (l2.take p) htake
      obtain ⟨right, hqr, hpr, hsr⟩ := ih (l2.drop (p + 1)) hdrop
      have hpn : p < l2.length := by omega
      have hvright : ∀ b ∈ right, dget l2 p ≤ b := by
        intro b hb
        obtain ⟨j, hj, hjv⟩ := (mem_iff_dget _ b).mp (hpr.mem_iff.mp hb)
        rw [List.length_drop] at hj
        rw [dget_drop] at hjv
        rw [← hjv]
        exact hpost2 (p + 1 + j) (by omega) (by omega)
      have hvleft : ∀ a ∈ left, a ≤ dget l2 p := by
        intro a ha
        obtain ⟨j, hj, hjv⟩ := (mem_iff_dget _ a).mp (hpl.mem_iff.mp ha)
        rw [List.length_take] at hj
        rw [dget_take _ _ _ (by omega)] at hjv
        rw [← hjv]
        exact hpost1 j (by omega)
      refine ⟨left ++ dget l2 p :: right, ?_, ?_, ?_⟩
      · simp only [qsort]
        rw [if_neg hsmall, hpart, ok_bind]
        simp only []
        rw [hql, ok_bind, hqr, ok_bind, getE_eq_ok l2 p hpn, ok_bind, pure_ok]
      · have hsplit : l2.take p ++ dget l2 p :: l2.drop (p + 1) = l2 := by
          conv_rhs => rw [← List.take_append_drop p l2]
          rw [drop_eq_dget_cons l2 p hpn]
        have hstep : (left ++ dget l2 p :: right).Perm
            (l2.take p ++ dget l2 p :: l2.drop (p + 1)) :=
          hpl.append (hpr.cons (dget l2 p))
        rw [hsplit] at hstep
        exact hstep.trans hperm
      · refine List.pairwise_append.mpr ⟨hsl, List.pairwise_cons.mpr ⟨hvright, hsr⟩, ?_⟩
        intro a ha b hb
        rcases List.mem_cons.mp hb with rfl | hbr
        · exact hvleft a ha
        · exact le_trans (hvleft a ha) (hvright b hbr)

theorem quicksort_spec (l : List α) :
    ∃ l2, quicksort l = .ok l2 ∧ l2.Perm l ∧ List.Sorted (· ≤ ·) l2 := by
  unfold quicksort
  exact qsort_spec (l.length + 1) l (by omega)

/-! ### Helpers for the claim theorems -/

theorem sorted_dget (l : List α) (hs : List.Sorted (· ≤ ·) l) :
    ∀ i, 0 < i → i < l.length → dget l (i - 1) ≤ dget l i := by
  intro i hi hl
  have h := List.pairwise_iff_get.mp hs ⟨i - 1, by omega⟩ ⟨i, hl⟩
    (Fin.mk_lt_mk.mpr (by omega))
  rw [dget_eq_get l (i - 1) (by omega), dget_eq_get l i hl]
  exact h

theorem partition_ok_elim (l : List α) (p : Nat) (l2 : List α)
    (h : partition l = .ok (p, l2)) :
    2 ≤ l.length ∧ PartPost l.length p l2 ∧ l2.Perm l := by
  by_cases h2 : 2 ≤ l.length
  · obtain ⟨p1, l1, hok, hpost, hperm⟩ := partition_spec l h2
    rw [hok] at h
    simp only [Except.ok.injEq, Prod.mk.injEq] at h
    obtain ⟨rfl, rfl⟩ := h
    exact ⟨h2, hpost, hperm⟩
  · have he : partition l = .error .shortSlice := by
      unfold partition
      rw [if_pos (by omega)]
    rw [he] at h
    simp at h

theorem quicksort_ok_elim (l l2 : List α) (h : quicksort l = .ok l2) :
    l2.Perm l ∧ List.Sorted (· ≤ ·) l2 := by
  obtain ⟨l1, hok, hperm, hs⟩ := quicksort_spec l
  rw [hok] at h
  simp only [Except.ok.injEq] at h
  rw [← h]
  exact ⟨hperm, hs⟩

/-! ### Claim theorems -/

/-- C1: for every slice of length n ≥ 2 over a total order, after `partition`
returns index p, every element at an index i ≤ p satisfies seq[i] ≤ seq[p]
and every element at an index i ≥ p satisfies seq[i] ≥ seq[p] (non-strict on
both sides). -/
theorem partition_postcondition (l : List α) (p : Nat) (l2 : List α)
    (h : partition l = .ok (p, l2)) :
    p < l2.length ∧ (∀ i, i ≤ p → dget l2 i ≤ dget l2 p) ∧
      (∀ i, i < l2.length → p ≤ i → dget l2 p ≤ dget l2 i) := by
  obtain ⟨h2, ⟨hlen2, hp, hpost1, hpost2⟩, _⟩ := partition_ok_elim l p l2 h
  exact ⟨by omega, hpost1, fun i hi hpi => hpost2 i (by omega) hpi⟩

theorem partition_postcondition_witness :
    (partition ([5, 1, 0, 2, 2, 4, 3, 2] : List Nat) = .ok (4, [2, 1, 0, 2, 2, 4, 3, 5])) ∧
    (4 < ([2, 1, 0, 2, 2, 4, 3, 5] : List Nat).length ∧
      (∀ i, i ≤ 4 → dget ([2, 1, 0, 2, 2, 4, 3, 5] : List Nat) i ≤
        dget ([2, 1, 0, 2, 2, 4, 3, 5] : List Nat) 4) ∧
      (∀ i, i < ([2, 1, 0, 2, 2, 4, 3, 5] : List Nat).length → 4 ≤ i →
        dget ([2, 1, 0, 2, 2, 4, 3, 5] : List Nat) 4 ≤
          dget ([2, 1, 0, 2, 2, 4, 3, 5] : List Nat) i)) :=
  ⟨by decide, partition_postcondition [5, 1, 0, 2, 2, 4, 3, 2] 4 _ (by decide)⟩

/-- C2: for every slice (any length, including 0 and 1) over a total order,
`quicksort` returns and the resulting slice is non-decreasing: for every
i > 0, seq[i-1] ≤ seq[i]. -/
theorem quicksort_nondecreasing (l : List α) :
    ∃ l2, quicksort l = .ok l2 ∧
      ∀ i, 0 < i → i < l2.length → dget l2 (i - 1) ≤ dget l2 i := by
  obtain ⟨l2, hok, _, hs⟩ := quicksort_spec l
  exact ⟨l2, hok, sorted_dget l2 hs⟩

/-- C3: the multiset of elements after `quicksort` equals the multiset before
it, and likewise for `partition`: the output is a permutation of the input,
with no element created, destroyed, or duplicated. -/
theorem permutation_preservation :
    (∀ (l l2 : List α), quicksort l = .ok l2 → (l2 : Multiset α) = (l : Multiset α)) ∧
    (∀ (l : List α) (p : Nat) (l2 : List α), partition l = .ok (p, l2) →
      (l2 : Multiset α) = (l : Multiset α)) := by
  constructor
  · intro l l2 h
    exact Multiset.coe_eq_coe.mpr (quicksort_ok_elim l l2 h).1
  · intro l p l2 h
    exact Multiset.coe_eq_coe.mpr (partition_ok_elim l p l2 h).2.2

theorem permutation_preservation_witness :
    (quicksort ([2, 1] : List Nat) = .ok [1, 2]) ∧
    (([1, 2] : List Nat) : Multiset Nat) = (([2, 1] : List Nat) : Multiset Nat) ∧
    (partition ([5, 1] : List Nat) = .ok (0, [1, 5])) ∧
    (([1, 5] : List Nat) : Multiset Nat) = (([5, 1] : List Nat) : Multiset Nat) :=
  ⟨by decide, permutation_preservation.1 [2, 1] [1, 2] (by decide),
    by decide, permutation_preservation.2 [5, 1] 0 [1, 5] (by decide)⟩

/-- C4: for every slice of length ≥ 2 `partition` terminates and returns a
result (its fueled main loop never exhausts the fuel), and for every slice
`quicksort` terminates and returns a result. -/
theorem partition_quicksort_terminate :
    (∀ l : List α, 2 ≤ l.length → ∃ r, partition l = .ok r) ∧
    (∀ l : List α, ∃ r, quicksort l = .ok r) := by
  constructor
  · intro l h2
    obtain ⟨p, l2, hok, _, _⟩ := partition_spec l h2
    exact ⟨(p, l2), hok⟩
  · intro l
    obtain ⟨l2, hok, _, _⟩ := quicksort_spec l
    exact ⟨l2, hok⟩

theorem partition_quicksort_terminate_witness :
    (2 ≤ ([2, 1] : List Nat).length) ∧
    (∃ r, partition ([2, 1] : List Nat) = .ok r) ∧
    (∃ r, quicksort ([3, 1, 2] : List Nat) = .ok r) :=
  ⟨by decide, partition_quicksort_terminate.1 [2, 1] (by decide),
    partition_quicksort_terminate.2 [3, 1, 2]⟩

/-- C5: at every iteration of the main loop of `partition` (on every slice of
length ≥ 2), the three invariants hold: (1) the value at low_max is ≤ the
value at high_min; (2) every element at an index in 0..=low is ≤ the value
at low_max; (3) every element at an index ≥ high is ≥ the value at
high_min. -/
theorem loop_invariants (l : List α) (h2 : 2 ≤ l.length) (s : PartState α)
    (hr : Reaches l.length (initState l) s) :
    dget s.l s.low_max ≤ dget s.l s.high_min ∧
    (∀ i, i ≤ s.low → dget s.l i ≤ dget s.l s.low_max) ∧
    (∀ i, i < s.l.length → s.high ≤ i → dget s.l s.high_min ≤ dget s.l i) := by
  obtain ⟨hlen, _, _, _, _, _, inv1, inv2, inv3⟩ := reaches_inv l h2 s hr
  exact ⟨inv1, inv2, fun i hi hhi => inv3 i (by omega) hhi⟩

theorem loop_invariants_witness :
    (2 ≤ ([2, 1] : List Nat).length) ∧
    Reaches ([2, 1] : List Nat).length (initState [2, 1]) (initState [2, 1]) ∧
    (dget (initState ([2, 1] : List Nat)).l (initState ([2, 1] : List Nat)).low_max ≤
        dget (initState ([2, 1] : List Nat)).l (initState ([2, 1] : List Nat)).high_min ∧
      (∀ i, i ≤ (initState ([2, 1] : List Nat)).low →
        dget (initState ([2, 1] : List Nat)).l i ≤
          dget (initState ([2, 1] : List Nat)).l (initState ([2, 1] : List Nat)).low_max) ∧
      (∀ i, i < (initState ([2, 1] : List Nat)).l.length →
        (initState ([2, 1] : List Nat)).high ≤ i →
        dget (initState ([2, 1] : List Nat)).l (initState ([2, 1] : List Nat)).high_min ≤
          dget (initState ([2, 1] : List Nat)).l i)) :=
  ⟨by decide, Reaches.refl,
    loop_invariants [2, 1] (by decide) (initState [2, 1]) Reaches.refl⟩

/-- C6: for every slice of length ≥ 2, the pivot index p returned by
`partition` holds the maximum value of the low partition: seq[p] is a
maximum of seq[0..=p] after the call. -/
theorem pivot_holds_low_maximum (l : List α) (p : Nat) (l2 : List α)
    (h : partition l = .ok (p, l2)) :
    dget l2 p ∈ l2.take (p + 1) ∧ ∀ x ∈ l2.take (p + 1), x ≤ dget l2 p := by
  obtain ⟨h2, ⟨hlen2, hp, hpost1, _⟩, _⟩ := partition_ok_elim l p l2 h
  constructor
  · exact (mem_iff_dget _ _).mpr
      ⟨p, by rw [List.length_take]; omega, dget_take l2 (p + 1) p (by omega)⟩
  · intro x hx
    obtain ⟨i, hi, hiv⟩ := (mem_iff_dget _ x).mp hx
    rw [List.length_take] at hi
    rw [dget_take _ _ _ (by omega)] at hiv
    rw [← hiv]
    exact hpost1 i (by omega)

theorem pivot_holds_low_maximum_witness :
    (partition ([4, 2, 7, 1, 3] : List Nat) = .ok (2, [1, 2, 3, 7, 4])) ∧
    (dget ([1, 2, 3, 7, 4] : List Nat) 2 ∈ ([1, 2, 3, 7, 4] : List Nat).take 3 ∧
      ∀ x ∈ ([1, 2, 3, 7, 4] : List Nat).take 3, x ≤ dget ([1, 2, 3, 7, 4] : List Nat) 2) :=
  ⟨by decide, pivot_holds_low_maximum [4, 2, 7, 1, 3] 2 _ (by decide)⟩

/-- C7 as stated is false: in the place-both-low case the algorithm does not
advance `high` by 2 across the iteration; at the concrete reachable state
below, the step classifies both gap values as low, `low` advances by 2, but
`high` is 5 before and after the iteration, not 7. -/
theorem place_low_advance_cex :
    (2 ≤ ([5, 1, 2, 3, 1, 9] : List Nat).length) ∧
    Reaches ([5, 1, 2, 3, 1, 9] : List Nat).length (initState [5, 1, 2, 3, 1, 9])
      (initState [5, 1, 2, 3, 1, 9]) ∧
    partitionStep ([5, 1, 2, 3, 1, 9] : List Nat).length (initState [5, 1, 2, 3, 1, 9]) =
      .ok (.inl ⟨[5, 1, 1, 3, 2, 9], 2, 5, 0, 5⟩) ∧
    placeOf ((initState ([5, 1, 2, 3, 1, 9] : List Nat)).low + 2)
      (([5, 1, 2, 3, 1, 9] : List Nat).length -
        ((initState ([5, 1, 2, 3, 1, 9] : List Nat)).high - 1))
      (dget (initState ([5, 1, 2, 3, 1, 9] : List Nat)).l
        ((initState ([5, 1, 2, 3, 1, 9] : List Nat)).low + 1))
      (dget (initState ([5, 1, 2, 3, 1, 9] : List Nat)).l
        ((initState ([5, 1, 2, 3, 1, 9] : List Nat)).high - 1))
      (dget (initState ([5, 1, 2, 3, 1, 9] : List Nat)).l
        (initState ([5, 1, 2, 3, 1, 9] : List Nat)).low_max)
      (dget (initState ([5, 1, 2, 3, 1, 9] : List Nat)).l
        (initState ([5, 1, 2, 3, 1, 9] : List Nat)).high_min) = P.LOW ∧
    ¬ ((⟨[5, 1, 1, 3, 2, 9], 2, 5, 0, 5⟩ : PartState Nat).high =
        (initState ([5, 1, 2, 3, 1, 9] : List Nat)).high + 2) :=
  ⟨by decide, Reaches.refl, by decide, by decide, by decide⟩

/-- C7 amended: in every loop iteration of `partition` that classifies both
gap elements as low, the high-side gap element is swapped down adjacent to
the low-side gap element, low_max ends up holding the largest of the old
low_max value and the two new low values, and the algorithm advances `low`
by 2 while `high` is left unchanged across the iteration (the source
decrements it at the start of the iteration and increments it back). -/
theorem place_low_advance (l : List α) (h2 : 2 ≤ l.length) (s s1 : PartState α)
    (hr : Reaches l.length (initState l) s)
    (hstep : partitionStep l.length s = .ok (.inl s1))
    (hplace : placeOf (s.low + 2) (l.length - (s.high - 1)) (dget s.l (s.low + 1))
      (dget s.l (s.high - 1)) (dget s.l s.low_max) (dget s.l s.high_min) = P.LOW) :
    s1.low = s.low + 2 ∧ s1.high = s.high ∧
    s1.l = lswap s.l (s.low + 2) (s.high - 1) ∧
    dget s1.l s1.low_max =
      max (max (dget s.l s.low_max) (dget s.l (s.low + 1))) (dget s.l (s.high - 1)) := by
  have hInv := reaches_inv l h2 s hr
  by_cases hgap : s.high ≤ s.low + 3
  · obtain ⟨p, l2, hstep2, _, _⟩ := partitionStep_inr l.length s hInv hgap
    rw [hstep2] at hstep
    simp at hstep
  · obtain ⟨l0, low, high, lm, hm⟩ := s
    obtain ⟨hlen, hlh, hhn, hlm, hhm, hhmn, inv1, inv2, inv3⟩ := hInv
    simp only at hlen hlh hhn hlm hhm hhmn inv1 inv2 inv3 hgap hplace
    simp only [partitionStep] at hstep
    rw [getE_eq_ok l0 lm (by omega), ok_bind, getE_eq_ok l0 hm (by omega), ok_bind,
      assertE_eq_ok _ inv1, ok_bind, if_neg (by omega : ¬ low + 3 ≥ high),
      getE_eq_ok l0 (low + 1) (by omega), ok_bind,
      getE_eq_ok l0 (high - 1) (by omega), ok_bind, hplace] at hstep
    obtain ⟨lm2, heq, hlm2, hmax⟩ :=
      placeLow_spec l0 (low + 1) (high - 1) lm hm (by omega) (by omega) (by omega)
    rw [heq, ok_bind, pure_ok] at hstep
    simp only [Except.ok.injEq, Sum.inl.injEq] at hstep
    rw [← hstep]
    refine ⟨rfl, by simp only; omega, rfl, ?_⟩
    simp only
    exact hmax

theorem place_low_advance_witness :
    (2 ≤ ([5, 1, 2, 3, 1, 9] : List Nat).length) ∧
    Reaches ([5, 1, 2, 3, 1, 9] : List Nat).length (initState [5, 1, 2, 3, 1, 9])
      (initState [5, 1, 2, 3, 1, 9]) ∧
    partitionStep ([5, 1, 2, 3, 1, 9] : List Nat).length (initState [5, 1, 2, 3, 1, 9]) =
      .ok (.inl ⟨[5, 1, 1, 3, 2, 9], 2, 5, 0, 5⟩) ∧
    placeOf ((initState ([5, 1, 2, 3, 1, 9] : List Nat)).low + 2)
      (([5, 1, 2, 3, 1, 9] : List Nat).length -
        ((initState ([5, 1, 2, 3, 1, 9] : List Nat)).high - 1))
      (dget (initState ([5, 1, 2, 3, 1, 9] : List Nat)).l
        ((initState ([5, 1, 2, 3, 1, 9] : List Nat)).low + 1))
      (dget (initState ([5, 1, 2, 3, 1, 9] : List Nat)).l
        ((initState ([5, 1, 2, 3, 1, 9] : List Nat)).high - 1))
      (dget (initState ([5, 1, 2, 3, 1, 9] : List Nat)).l
        (initState ([5, 1, 2, 3, 1, 9] : List Nat)).low_max)
      (dget (initState ([5, 1, 2, 3, 1, 9] : List Nat)).l
        (initState ([5, 1, 2, 3, 1, 9] : List Nat)).high_min) = P.LOW ∧
    ((⟨[5, 1, 1, 3, 2, 9], 2, 5, 0, 5⟩ : PartState Nat).low =
        (initState ([5, 1, 2, 3, 1, 9] : List Nat)).low + 2 ∧
      (⟨[5, 1, 1, 3, 2, 9], 2, 5, 0, 5⟩ : PartState Nat).high =
        (initState ([5, 1, 2, 3, 1, 9] : List Nat)).high ∧
      (⟨[5, 1, 1, 3, 2, 9], 2, 5, 0, 5⟩ : PartState Nat).l =
        lswap (initState ([5, 1, 2, 3, 1, 9] : List Nat)).l
          ((initState ([5, 1, 2, 3, 1, 9] : List Nat)).low + 2)
          ((initState ([5, 1, 2, 3, 1, 9] : List Nat)).high - 1) ∧
      dget (⟨[5, 1, 1, 3, 2, 9], 2, 5, 0, 5⟩ : PartState Nat).l
          (⟨[5, 1, 1, 3, 2, 9], 2, 5, 0, 5⟩ : PartState Nat).low_max =
        max (max (dget (initState ([5, 1, 2, 3, 1, 9] : List Nat)).l
              (initState ([5, 1, 2, 3, 1, 9] : List Nat)).low_max)
            (dget (initState ([5, 1, 2, 3, 1, 9] : List Nat)).l
              ((initState ([5, 1, 2, 3, 1, 9] : List Nat)).low + 1)))
          (dget (initState ([5, 1, 2, 3, 1, 9] : List Nat)).l
            ((initState ([5, 1, 2, 3, 1, 9] : List Nat)).high - 1))) :=
  ⟨by decide, Reaches.refl, by decide, by decide,
    place_low_advance [5, 1, 2, 3, 1, 9] (by decide) (initState [5, 1, 2, 3, 1, 9])
      ⟨[5, 1, 1, 3, 2, 9], 2, 5, 0, 5⟩ Reaches.refl (by decide) (by decide)⟩

/-- C8: calling `partition` on a slice of length 0 or 1 faults with the
"invalid input" (short slice) fault, and this is the only failure mode:
`partition` returns an error exactly on slices of length < 2, and that error
is always the short-slice fault. -/
theorem partition_short_slice_fault (l : List α) (e : Fault) :
    partition l = .error e ↔ l.length < 2 ∧ e = Fault.shortSlice := by
  constructor
  · intro h
    by_cases h2 : l.length < 2
    · refine ⟨h2, ?_⟩
      unfold partition at h
      rw [if_pos h2] at h
      simp only [Except.error.injEq] at h
      exact h.symm
    · obtain ⟨p, l2, hok, _, _⟩ := partition_spec l (by omega)
      rw [hok] at h
      simp at h
  · rintro ⟨h2, rfl⟩
    unfold partition
    rw [if_pos h2]

/-- C9: `quicksort` is idempotent: sorting produces a slice that sorting
again leaves unchanged, i.e. sort(sort(x)) = sort(x). -/
theorem quicksort_idempotent (l : List α) :
    ∃ l2, quicksort l = .ok l2 ∧ quicksort l2 = .ok l2 := by
  obtain ⟨l2, hok, hperm, hs⟩ := quicksort_spec l
  obtain ⟨l3, hok3, hperm3, hs3⟩ := quicksort_spec l2
  have h32 : l3 = l2 := List.eq_of_perm_of_sorted hperm3 hs3 hs
  rw [h32] at hok3
  exact ⟨l2, hok, hok3⟩

/-- C10: for every slice of length ≥ 2, `partition` never faults after its
length check: every internal `assert!` succeeds, all indexing stays in
bounds, the loop fuel never runs out, and the returned pivot index is
strictly less than the slice length (the slice keeping its length). -/
theorem partition_safe (l : List α) (h2 : 2 ≤ l.length) :
    ∃ p l2, partition l = .ok (p, l2) ∧ p < l.length ∧ l2.length = l.length := by
  obtain ⟨p, l2, hok, hpost, _⟩ := partition_spec l h2
  exact ⟨p, l2, hok, hpost.hp, hpost.hlen⟩

theorem partition_safe_witness :
    (2 ≤ ([3, 1, 2] : List Nat).length) ∧
    (∃ p l2, partition ([3, 1, 2] : List Nat) = .ok (p, l2) ∧
      p < ([3, 1, 2] : List Nat).length ∧ l2.length = ([3, 1, 2] : List Nat).length) :=
  ⟨by decide, partition_safe [3, 1, 2] (by decide)⟩

end Quicksort
